import Mathlib

/-!
# Verification of the tiled depth-map stitching and refinement pipeline

A shallow embedding of the numerical core of `src/cli_sam.py`:
the Photometric Aligner (`_align_patch_to_guide`), the Tile Scheduler and
Seam Blender (`_zoe_infer_tiled`), the joint-bilateral Depth Refiner
(`_refine_with_joint_bilateral`), the Normalizer
(`_normalize_depth_to_uint16`) and the mask statistics
(`_compute_mask_depth_stats`).

Modelling conventions:
* Python floats are modelled as exact rationals (`ℚ`); float identities
  proved here hold in exact arithmetic ("within floating-point tolerance"
  in the specification's phrasing).
* A float that may be non-finite (NaN / ±Inf) is modelled as `Option ℚ`,
  `none` standing for a non-finite value.  `np.isfinite x` becomes
  `x.isSome`, and arithmetic mapped over such values propagates `none`
  exactly as NaN/Inf propagate through `a * s + b`.
* The depth oracle (ZoeDepth, called through `_zoe_forward_single`) is an
  external collaborator; it is a parameter `oracle : Img → ℕ → ℕ → Val`
  mapping an RGB raster to a same-size depth raster.
* `np.hanning` is a NumPy library primitive (not repository code):
  `np.hanning M = fun n => 1/2 - 1/2 * cos (2*pi*n/(M-1))`, a transcendental
  expression.  The blender is therefore parameterised by the 1-D window
  `hann : ℕ → ℕ → ℚ` (size, index ↦ weight).  The only window facts any
  theorem below relies on are facts true of `np.hanning`: its endpoint
  values are exactly `0` (`cos 0 = cos (2*pi) = 1`) and its near-endpoint
  values are tiny for large sizes (`np.hanning 128 1 ≈ 6.1e-4`).  The
  concrete window `hannStub` used in counterexamples reproduces exactly
  those facts.
* `np.exp` in the refiner is likewise a library primitive; the refiner is
  parameterised by `gexp : ℚ → ℚ` standing for `t ↦ exp (-t)`; the facts
  used are `exp 0 = 1` and `0 ≤ exp t`.
-/

namespace Med7

/-- A possibly non-finite float value: `none` models NaN / ±Inf. -/
abbrev Val := Option ℚ

/-- An RGB pixel (three channel values, 0–255 scale as loaded by PIL). -/
abbrev Pix := ℚ × ℚ × ℚ

/-- An RGB raster of width `W` and height `H`; `pix r c` reads row `r`,
column `c`.  Only indices `r < H`, `c < W` are meaningful. -/
structure Img where
  W : ℕ
  H : ℕ
  pix : ℕ → ℕ → Pix

/-- `Image.crop (x, y, x + ts, y + ts)` from PIL: a `ts × ts` image whose
in-bounds pixels come from the source and whose out-of-bounds region is
padded with black, exactly as PIL pads crops that extend past the edge. -/
def cropImg (img : Img) (x y ts : ℕ) : Img :=
  { W := ts, H := ts,
    pix := fun i j => if y + i < img.H ∧ x + j < img.W then img.pix (y + i) (x + j) else (0, 0, 0) }

/-- A depth oracle (the black-box ZoeDepth call `_zoe_forward_single`):
maps an image to a same-size depth raster, read at row/column indices.
`OracleProper` states the interface assumption that the oracle reads only
the actual pixels of its input image (a real model sees nothing else);
it is needed because `Img.pix` is total on `ℕ × ℕ`. -/
def OracleProper (oracle : Img → ℕ → ℕ → Val) : Prop :=
  ∀ a b : Img, a.W = b.W → a.H = b.H →
    (∀ r c, r < a.H → c < a.W → a.pix r c = b.pix r c) → oracle a = oracle b

/-! ## Photometric Aligner: `_align_patch_to_guide` (cli_sam.py lines 262–279)

A patch is an `hp × wp` rectangle read from a `ℕ → ℕ → Val` function.
`finitePairs` collects, in row-major order, the pairs of values at indices
where both the tile and the guide are finite — the mask
`np.isfinite(tile_patch) & np.isfinite(guide_patch)`. -/

/-- Row-major list of jointly-finite (tile, guide) value pairs of an
`hp × wp` patch. -/
def finitePairs (hp wp : ℕ) (t g : ℕ → ℕ → Val) : List (ℚ × ℚ) :=
  (List.range hp).flatMap fun i =>
    (List.range wp).filterMap fun j =>
      match t i j, g i j with
      | some a, some b => some (a, b)
      | _, _ => none

/-- Mean of the tile components of the jointly-finite pairs
(`tile_vals.mean()`). -/
def pairsMeanT (pairs : List (ℚ × ℚ)) : ℚ := (pairs.map Prod.fst).sum / pairs.length

/-- Mean of the guide components of the jointly-finite pairs
(`guide_vals.mean()`). -/
def pairsMeanG (pairs : List (ℚ × ℚ)) : ℚ := (pairs.map Prod.snd).sum / pairs.length

/-- Population variance of the tile components (`np.var(tile_vals)`). -/
def pairsVarT (pairs : List (ℚ × ℚ)) : ℚ :=
  let m := pairsMeanT pairs
  (pairs.map fun p => (p.1 - m) * (p.1 - m)).sum / pairs.length

/-- Covariance estimator `np.mean((tile_vals - t_mean) * (guide_vals - g_mean))`. -/
def pairsCov (pairs : List (ℚ × ℚ)) : ℚ :=
  let mt := pairsMeanT pairs
  let mg := pairsMeanG pairs
  (pairs.map fun p => (p.1 - mt) * (p.2 - mg)).sum / pairs.length

/-- `_align_patch_to_guide`: if there is no guide, return the tile
unchanged; if fewer than 24 jointly-finite samples exist, return the tile
unchanged; if the tile variance is below `1e-6`, add the bias
`g_mean - t_mean` to every entry; otherwise apply the clipped regression
`tile * scale + bias`.  Adding or affinely mapping a non-finite entry
leaves it non-finite (`Option.map`), as NaN/Inf arithmetic does. -/
def alignPatchToGuide (hp wp : ℕ) (t : ℕ → ℕ → Val) (g : Option (ℕ → ℕ → Val)) :
    ℕ → ℕ → Val :=
  match g with
  | none => t
  | some gp =>
    let pairs := finitePairs hp wp t gp
    if pairs.length < 24 then t
    else
      let tMean := pairsMeanT pairs
      let gMean := pairsMeanG pairs
      let tVar := pairsVarT pairs
      if tVar < 1 / 1000000 then fun i j => (t i j).map fun v => v + (gMean - tMean)
      else
        let cov := pairsCov pairs
        let scale := min (cov / tVar) 5
        let scale := max scale (1 / 5)
        let bias := gMean - scale * tMean
        fun i j => (t i j).map fun v => v * scale + bias

/-! ## Tile Scheduler and Seam Blender: `_zoe_infer_tiled` (cli_sam.py lines 282–341) -/

/-- `ts = max(64, int(tile_size))`. -/
def tsOf (tileSize : ℕ) : ℕ := max 64 tileSize

/-- `ov = int(max(0, min(overlap, ts // 2)))`; on `ℕ` the `max 0` clamp is
built into the type. -/
def ovOf (tileSize overlap : ℕ) : ℕ := min overlap (tsOf tileSize / 2)

/-- `step = ts - ov`. -/
def stepOf (tileSize overlap : ℕ) : ℕ := tsOf tileSize - ovOf tileSize overlap

/-- The per-axis start coordinates:
`xs = list(range(0, max(1, W - ts + 1), step))`, then
`if xs[-1] != max(0, W - ts): xs.append(max(0, W - ts))`.
On `ℕ`, `max 0 (W - ts)` is the truncated subtraction `W - ts`, and
`max 1 (W - ts + 1)` equals `(W - ts) + 1`. -/
def tileStarts (dim tileSize overlap : ℕ) : List ℕ :=
  let ts := tsOf tileSize
  let step := stepOf tileSize overlap
  let stop := max 1 (dim - ts + 1)
  let base := List.range' 0 ((stop + step - 1) / step) step
  if base.getLast? = some (dim - ts) then base else base ++ [dim - ts]

/-- The 1-D feather window `wx = np.hanning(ts) if ts >= 8 else np.ones(ts)`,
with the transcendental `np.hanning` supplied as the parameter `hann`. -/
def featherWin (hann : ℕ → ℕ → ℚ) (ts n : ℕ) : ℚ :=
  if 8 ≤ ts then hann ts n else 1

/-- The separable 2-D weight `w2 = wy[:, None] * wx[None, :]`, clamped from
below by `0.25` when the overlap is small (`if ov < ts // 3:
w2 = np.clip(w2, 0.25, None)`). -/
def w2At (hann : ℕ → ℕ → ℚ) (tileSize overlap i j : ℕ) : ℚ :=
  let ts := tsOf tileSize
  let v := featherWin hann ts i * featherWin hann ts j
  if ovOf tileSize overlap < ts / 3 then max v (1 / 4) else v

/-- The row-major list of tile placements `(y, x)` traversed by the
double loop `for y in ys: for x in xs:`. -/
def placements (W H tileSize overlap : ℕ) : List (ℕ × ℕ) :=
  (tileStarts H tileSize overlap).flatMap fun y =>
    (tileStarts W tileSize overlap).map fun x => (y, x)

/-- The per-placement aligned tile, in tile-local coordinates:
`d = _zoe_forward_single(zoe, pil_img.crop((x, y, x + ts, y + ts)))`,
`tile = d[:h_eff, :w_eff]`, then
`tile = _align_patch_to_guide(tile, guide[y:y+h_eff, x:x+w_eff])`
when a guide raster is present.  The guide itself (lines 309–322) is a
low-resolution oracle pass resampled with PIL (an external library); the
blender consumes it read-only, so it enters the model as the optional
parameter `guide`. -/
def tileAligned (oracle : Img → ℕ → ℕ → Val) (img : Img)
    (guide : Option (ℕ → ℕ → Val)) (tileSize overlap y x : ℕ) : ℕ → ℕ → Val :=
  let ts := tsOf tileSize
  let hEff := min ts (img.H - y)
  let wEff := min ts (img.W - x)
  let d := oracle (cropImg img x y ts)
  match guide with
  | none => d
  | some g => alignPatchToGuide hEff wEff d (some fun i j => g (y + i) (x + j))

/-- Whether global pixel `(r, c)` lies in the accumulation region
`[y : y + h_eff, x : x + w_eff]` of placement `p = (y, x)`. -/
def inRegion (img : Img) (tileSize : ℕ) (p : ℕ × ℕ) (r c : ℕ) : Prop :=
  p.1 ≤ r ∧ r < p.1 + min (tsOf tileSize) (img.H - p.1) ∧
  p.2 ≤ c ∧ c < p.2 + min (tsOf tileSize) (img.W - p.2)

instance (img : Img) (tileSize : ℕ) (p : ℕ × ℕ) (r c : ℕ) :
    Decidable (inRegion img tileSize p r c) := by
  unfold inRegion; infer_instance

/-- The finite-value tile read at global coordinates:
`tile = np.where(np.isfinite(tile), tile, 0.0)` — a non-finite entry
contributes zero value (but, below, full weight). -/
def tileQ (oracle : Img → ℕ → ℕ → Val) (img : Img) (guide : Option (ℕ → ℕ → Val))
    (tileSize overlap : ℕ) (p : ℕ × ℕ) (r c : ℕ) : ℚ :=
  (tileAligned oracle img guide tileSize overlap p.1 p.2 (r - p.1) (c - p.2)).getD 0

/-- One iteration of the accumulation loop:
`acc[y:y+h_eff, x:x+w_eff] += tile * w2[:h_eff, :w_eff]` and
`wsum[y:y+h_eff, x:x+w_eff] += w2[:h_eff, :w_eff]`, acting on the pair of
accumulation buffers `(acc, wsum)`. -/
def blendStep (hann : ℕ → ℕ → ℚ) (oracle : Img → ℕ → ℕ → Val) (img : Img)
    (guide : Option (ℕ → ℕ → Val)) (tileSize overlap : ℕ)
    (b : (ℕ → ℕ → ℚ) × (ℕ → ℕ → ℚ)) (p : ℕ × ℕ) : (ℕ → ℕ → ℚ) × (ℕ → ℕ → ℚ) :=
  (fun r c =>
    if inRegion img tileSize p r c then
      b.1 r c + tileQ oracle img guide tileSize overlap p r c *
        w2At hann tileSize overlap (r - p.1) (c - p.2)
    else b.1 r c,
   fun r c =>
    if inRegion img tileSize p r c then
      b.2 r c + w2At hann tileSize overlap (r - p.1) (c - p.2)
    else b.2 r c)

/-- The accumulation buffers `acc = np.zeros((H, W))`, `wsum = np.zeros((H, W))`
after the full double loop over tile placements. -/
def accWsum (hann : ℕ → ℕ → ℚ) (oracle : Img → ℕ → ℕ → Val) (img : Img)
    (guide : Option (ℕ → ℕ → Val)) (tileSize overlap : ℕ) :
    (ℕ → ℕ → ℚ) × (ℕ → ℕ → ℚ) :=
  (placements img.W img.H tileSize overlap).foldl
    (blendStep hann oracle img guide tileSize overlap) (fun _ _ => 0, fun _ _ => 0)

/-- `_zoe_infer_tiled`: after accumulation,
`wsum = np.where(wsum > 1e-6, wsum, 1.0)` and `out = acc / wsum`. -/
def zoeInferTiled (hann : ℕ → ℕ → ℚ) (oracle : Img → ℕ → ℕ → Val) (img : Img)
    (guide : Option (ℕ → ℕ → Val)) (tileSize overlap : ℕ) : ℕ → ℕ → ℚ :=
  let b := accWsum hann oracle img guide tileSize overlap
  fun r c => b.1 r c / (if 1 / 1000000 < b.2 r c then b.2 r c else 1)

/-- Closed-form per-placement value contribution at pixel `(r, c)`:
the loop adds `tile * w2` there when the pixel is in the placement's
region and nothing otherwise. -/
def accTerm (hann : ℕ → ℕ → ℚ) (oracle : Img → ℕ → ℕ → Val) (img : Img)
    (guide : Option (ℕ → ℕ → Val)) (tileSize overlap : ℕ) (p : ℕ × ℕ) (r c : ℕ) : ℚ :=
  if inRegion img tileSize p r c then
    tileQ oracle img guide tileSize overlap p r c *
      w2At hann tileSize overlap (r - p.1) (c - p.2)
  else 0

/-- Closed-form per-placement weight contribution at pixel `(r, c)`. -/
def wTerm (hann : ℕ → ℕ → ℚ) (img : Img) (tileSize overlap : ℕ)
    (p : ℕ × ℕ) (r c : ℕ) : ℚ :=
  if inRegion img tileSize p r c then w2At hann tileSize overlap (r - p.1) (c - p.2)
  else 0

/-- `weighted_sum` at a pixel as a sum over all placements. -/
def accSum (hann : ℕ → ℕ → ℚ) (oracle : Img → ℕ → ℕ → Val) (img : Img)
    (guide : Option (ℕ → ℕ → Val)) (tileSize overlap : ℕ) (r c : ℕ) : ℚ :=
  ((placements img.W img.H tileSize overlap).map
    (fun p => accTerm hann oracle img guide tileSize overlap p r c)).sum

/-- `weight_total` at a pixel as a sum over all placements. -/
def wsumSum (hann : ℕ → ℕ → ℚ) (img : Img) (tileSize overlap : ℕ) (r c : ℕ) : ℚ :=
  ((placements img.W img.H tileSize overlap).map
    (fun p => wTerm hann img tileSize overlap p r c)).sum

/-- The non-tiled branch of `run_once` in the case `max(W, H) <= max_dim`
(no downscale): `depth = _zoe_forward_single(zoe, img)` applied to the
image itself.  (The downscale branch resamples with PIL, an external
library, and is outside the scenario compared in the tiling-equivalence
property, which forces `tile_size ≥ max(W, H) ≤ max_dim`.) -/
def singleDepth (oracle : Img → ℕ → ℕ → Val) (img : Img) : ℕ → ℕ → Val :=
  oracle img

/-! ## Normalizer: `_normalize_depth_to_uint16` (cli_sam.py lines 196–209)

A raster enters the normalizer as its row-major list of (possibly
non-finite) values; every step of the source function is elementwise or a
reduction over the whole array, so the flattened view is exact. -/

/-- The finite values of a raster (`d[finite_mask]`), in order. -/
def finiteVals (d : List Val) : List ℚ := d.filterMap id

/-- Minimum of a list of rationals, `0` on the empty list (never used on
an empty list by the callers below). -/
def listMinD : List ℚ → ℚ
  | [] => 0
  | a :: r => r.foldl min a

/-- Maximum of a list of rationals, `0` on the empty list. -/
def listMaxD : List ℚ → ℚ
  | [] => 0
  | a :: r => r.foldl max a

/-- Result record of `_normalize_depth_to_uint16`: the 16-bit raster, the
normalized float raster, and the `(d_min, d_max)` pair. -/
structure NormResult where
  d16 : List ℕ
  dnorm : List ℚ
  dmin : ℚ
  dmax : ℚ
  deriving Repr, DecidableEq

/-- Truncation of a non-negative rational towards zero, as NumPy's
`astype(np.uint16)` truncates a float already clipped into `[0, 65535]`. -/
def ratToNatFloor (q : ℚ) : ℕ := q.num.toNat / q.den

/-- `_normalize_depth_to_uint16`: if nothing is finite, return all-zero
rasters with the sentinel pair `(0.0, 1.0)`; otherwise replace non-finite
entries by `0.0`, rescale by `max(d_max - d_min, 1e-6)` and clip-truncate
into `[0, 65535]`. -/
def normalizeDepthToUint16 (d : List Val) : NormResult :=
  let fv := finiteVals d
  if fv.isEmpty then ⟨d.map fun _ => 0, d.map fun _ => 0, 0, 1⟩
  else
    let dmin := listMinD fv
    let dmax := listMaxD fv
    let range := max (dmax - dmin) (1 / 1000000)
    let dz := d.map fun v => (v.getD 0 - dmin) / range
    ⟨dz.map fun q => ratToNatFloor (min (max (q * 65535) 0) 65535), dz, dmin, dmax⟩

/-! ## Mask statistics: `_compute_mask_depth_stats` (cli_sam.py lines 212–258) -/

/-- `np.clip(v, 0.0, 1.0)`. -/
def clip01 (q : ℚ) : ℚ := min (max q 0) 1

/-- `radius_norm = max(0.005, min(0.5, radius_norm))`. -/
def clampRadius (r : ℚ) : ℚ := max (1 / 200) (min (1 / 2) r)

/-- Insertion of a value into a sorted list of rationals (ascending). -/
def insertSorted (q : ℚ) : List ℚ → List ℚ
  | [] => [q]
  | a :: r => if q ≤ a then q :: a :: r else a :: insertSorted q r

/-- Ascending sort of a list of rationals (NumPy quantile routines sort
their input ascending). -/
def sortQ (l : List ℚ) : List ℚ := l.foldr insertSorted []

/-- `np.percentile(vals, p)` with the default linear interpolation:
virtual index `(n - 1) * p / 100`, linear between the two bracketing
order statistics.  The index is non-negative, so `ratToNatFloor` is its
floor.  `np.median` coincides with the 50th percentile under this rule. -/
def percentile (l : List ℚ) (p : ℚ) : ℚ :=
  let s := sortQ l
  let idx : ℚ := ((l.length : ℚ) - 1) * p / 100
  let k := ratToNatFloor idx
  match s[k]?, s[k + 1]? with
  | some a, some b => a + (idx - (k : ℚ)) * (b - a)
  | some a, none => a
  | none, _ => 0

/-- The disc test of the focus restriction: pixel `(y, x)` is within
`radius_px` of some prompt point `(px, py)` scaled by `(W - 1, H - 1)`. -/
def focusHit (H W : ℕ) (pts : List (ℚ × ℚ)) (radiusPx : ℚ) (y x : ℕ) : Bool :=
  pts.any fun pt =>
    let cx := clip01 pt.1 * ((W : ℚ) - 1)
    let cy := clip01 pt.2 * ((H : ℚ) - 1)
    let dx := (x : ℚ) - cx
    let dy := (y : ℚ) - cy
    decide (dx * dx + dy * dy ≤ radiusPx * radiusPx)

/-- `mask.sum()` over the `H × W` grid of a boolean raster. -/
def gridCount (H W : ℕ) (m : ℕ → ℕ → Bool) : ℕ :=
  ((List.range H).map fun y => ((List.range W).filter fun x => m y x).length).sum

/-- The depth values selected by a boolean raster that are also finite,
row-major (`vals = depth_map[mask]; vals = vals[np.isfinite(vals)]`). -/
def gridVals (H W : ℕ) (depth : ℕ → ℕ → Val) (m : ℕ → ℕ → Bool) : List ℚ :=
  (List.range H).flatMap fun y =>
    (List.range W).filterMap fun x => if m y x then depth y x else none

/-- The focus-restriction step: when at least one prompt point is given
(`focus_points.size >= 2`), intersect the mask with the union of discs;
keep the intersection only if it selects at least 64 pixels, else revert
to the full mask (and report no focus radius). -/
def statsSel (H W : ℕ) (mask : ℕ → ℕ → Bool) (focusPoints : Option (List (ℚ × ℚ)))
    (focusRadius : ℚ) : (ℕ → ℕ → Bool) × Option ℚ :=
  match focusPoints with
  | none => (mask, none)
  | some pts =>
    if 1 ≤ pts.length then
      let rn := clampRadius focusRadius
      let radiusPx := rn * (max H W : ℕ)
      let fm := fun y x => mask y x && focusHit H W pts radiusPx y x
      if 64 ≤ gridCount H W fm then (fm, some radiusPx) else (mask, none)
    else (mask, none)

/-- The statistics record (`zoe_band_center`, `zoe_band_iqr`,
`zoe_mask_px`, optional `zoe_focus_radius_px`). -/
structure StatsResult where
  bandCenter : ℚ
  bandIqr : ℚ
  maskPx : ℕ
  focusRadiusPx : Option ℚ

/-- `_compute_mask_depth_stats`: `none` models the empty dict `{}`
returned when fewer than 16 pixels are selected or fewer than 8 of their
depth values are finite; otherwise the median, the floored interquartile
range `max(q3 - q1, 1e-6)` and the pixel count. -/
def computeMaskDepthStats (H W : ℕ) (depth : ℕ → ℕ → Val) (mask : ℕ → ℕ → Bool)
    (focusPoints : Option (List (ℚ × ℚ))) (focusRadius : ℚ) : Option StatsResult :=
  let sp := statsSel H W mask focusPoints focusRadius
  let count := gridCount H W sp.1
  if count < 16 then none
  else
    let vals := gridVals H W depth sp.1
    if vals.length < 8 then none
    else
      let med := percentile vals 50
      let q1 := percentile vals 25
      let q3 := percentile vals 75
      some ⟨med, max (q3 - q1) (1 / 1000000), count, sp.2⟩

/-! ## Depth Refiner: `_refine_with_joint_bilateral` (cli_sam.py lines 344–378)

The Gaussian `np.exp(-t)` is a library primitive; the refiner is
parameterised by `gexp : ℚ → ℚ` standing for `t ↦ exp (-t)`.  Depth values
reaching the refiner come out of the blender's division and are plain
rationals here. -/

/-- Normalized color `rgb_f = rgb / 255.0` at a pixel. -/
def rgbF (rgb : ℕ → ℕ → Pix) (y x : ℕ) : Pix :=
  ((rgb y x).1 / 255, (rgb y x).2.1 / 255, (rgb y x).2.2 / 255)

/-- Squared channel distance `np.sum((patch_rgb - center) ** 2, axis=2)`. -/
def dist2 (a b : Pix) : ℚ :=
  (a.1 - b.1) * (a.1 - b.1) + (a.2.1 - b.2.1) * (a.2.1 - b.2.1) +
    (a.2.2 - b.2.2) * (a.2.2 - b.2.2)

/-- The combined bilateral weight `w = gs * gr` of neighbour `(yy, xx)`
relative to centre `(y, x)`: spatial factor
`exp(-((yy - y)² + (xx - x)²) / (2 σs²))` and range factor
`exp(-‖Δrgb‖² / (2 σr²))`. -/
def bilateralWeight (rgb : ℕ → ℕ → Pix) (sigmaS sigmaR : ℚ) (gexp : ℚ → ℚ)
    (y x yy xx : ℕ) : ℚ :=
  let twoSigmaS2 := 2 * (sigmaS * sigmaS)
  let twoSigmaR2 := 2 * (sigmaR * sigmaR)
  let gs := gexp ((((yy : ℚ) - y) * ((yy : ℚ) - y) +
    ((xx : ℚ) - x) * ((xx : ℚ) - x)) / twoSigmaS2)
  let gr := gexp (dist2 (rgbF rgb yy xx) (rgbF rgb y x) / twoSigmaR2)
  gs * gr

/-- The row index list `y0 .. y1 - 1` of the clipped neighbourhood window
(`y0 = max(0, y - radius)`, `y1 = min(H, y + radius + 1)`). -/
def windowIdx (dim center radius : ℕ) : List ℕ :=
  List.range' (center - radius) (min dim (center + radius + 1) - (center - radius))

/-- Total bilateral weight `w_sum = np.sum(w)` over the window. -/
def bilateralWSum (H W : ℕ) (rgb : ℕ → ℕ → Pix) (sigmaS sigmaR : ℚ) (gexp : ℚ → ℚ)
    (radius y x : ℕ) : ℚ :=
  ((windowIdx H y radius).map fun yy =>
    ((windowIdx W x radius).map fun xx =>
      bilateralWeight rgb sigmaS sigmaR gexp y x yy xx).sum).sum

/-- Weighted depth total `np.sum(w * patch_d)` over the window. -/
def bilateralNum (H W : ℕ) (rgb : ℕ → ℕ → Pix) (depth : ℕ → ℕ → ℚ)
    (sigmaS sigmaR : ℚ) (gexp : ℚ → ℚ) (radius y x : ℕ) : ℚ :=
  ((windowIdx H y radius).map fun yy =>
    ((windowIdx W x radius).map fun xx =>
      bilateralWeight rgb sigmaS sigmaR gexp y x yy xx * depth yy xx).sum).sum

/-- `_refine_with_joint_bilateral` with an already-binary mask
(`mask_is_binary=True` path): unselected pixels pass through; a selected
pixel takes the weighted neighbourhood average when `w_sum > 1e-8`,
otherwise it keeps its unfiltered value. -/
def refineJointBilateral (H W : ℕ) (rgb : ℕ → ℕ → Pix) (depth : ℕ → ℕ → ℚ)
    (mask : ℕ → ℕ → Bool) (radius : ℕ) (sigmaS sigmaR : ℚ) (gexp : ℚ → ℚ) :
    ℕ → ℕ → ℚ :=
  fun y x =>
    if mask y x then
      let wSum := bilateralWSum H W rgb sigmaS sigmaR gexp radius y x
      if 1 / 100000000 < wSum then
        bilateralNum H W rgb depth sigmaS sigmaR gexp radius y x / wSum
      else depth y x
    else depth y x

/-! ## Concrete instances used in witnesses and counterexamples -/

/-- A concrete feather window with exactly the features of `np.hanning`
that the accumulation behaviour depends on: endpoint weights are exactly
`0` (as `np.hanning M` has `0` at indices `0` and `M - 1` for `M ≥ 2`) and
the next-to-endpoint weights are tiny (`np.hanning 128` has `≈ 6.1e-4`
there; `1/2000` here), all values lying in `[0, 1]`. -/
def hannStub (M n : ℕ) : ℚ :=
  if n = 0 ∨ n + 1 = M then 0 else if n = 1 ∨ n + 2 = M then 1 / 2000 else 1 / 2

/-- A solid-black image of the given size. -/
def imgConst (W H : ℕ) : Img := ⟨W, H, fun _ _ => (0, 0, 0)⟩

/-- A deterministic stub oracle returning the constant depth `q`. -/
def oracleConst (q : ℚ) : Img → ℕ → ℕ → Val := fun _ _ _ => some q

/-- A deterministic stub oracle whose output depends on the size of the
image it is shown: every depth value equals the image's width.  It reads
no pixel, so it satisfies `OracleProper`. -/
def oracleWidth : Img → ℕ → ℕ → Val := fun im _ _ => some ((im.W : ℚ))

/-- A constant 5×5 tile patch used to exercise the bias-only branch. -/
def cTile : ℕ → ℕ → Val := fun _ _ => some 2

/-- A constant 5×5 guide patch used to exercise the bias-only branch. -/
def cGuide : ℕ → ℕ → Val := fun _ _ => some 7

/-! ## Helper lemmas -/

theorem foldlMin_mem (a : ℚ) (l : List ℚ) : l.foldl min a ∈ a :: l := by
  induction l generalizing a with
  | nil => simp
  | cons b r ih =>
    have h := ih (min a b)
    rw [List.foldl_cons]
    rcases List.mem_cons.mp h with h1 | h1
    · rw [h1]
      rcases min_choice a b with hm | hm <;> rw [hm] <;> simp
    · exact List.mem_cons_of_mem _ (List.mem_cons_of_mem _ h1)

theorem foldlMin_le (a : ℚ) (l : List ℚ) : ∀ x ∈ a :: l, l.foldl min a ≤ x := by
  induction l generalizing a with
  | nil => intro x hx; simp at hx; simp [hx]
  | cons b r ih =>
    intro x hx
    have hhead := ih (min a b) (min a b) (List.mem_cons_self _ _)
    rw [List.foldl_cons]
    rcases List.mem_cons.mp hx with h1 | h1
    · rw [h1]; exact le_trans hhead (min_le_left a b)
    · rcases List.mem_cons.mp h1 with h2 | h2
      · rw [h2]; exact le_trans hhead (min_le_right a b)
      · exact ih (min a b) x (List.mem_cons_of_mem _ h2)

theorem foldlMax_mem (a : ℚ) (l : List ℚ) : l.foldl max a ∈ a :: l := by
  induction l generalizing a with
  | nil => simp
  | cons b r ih =>
    have h := ih (max a b)
    rw [List.foldl_cons]
    rcases List.mem_cons.mp h with h1 | h1
    · rw [h1]
      rcases max_choice a b with hm | hm <;> rw [hm] <;> simp
    · exact List.mem_cons_of_mem _ (List.mem_cons_of_mem _ h1)

theorem foldlMax_ge (a : ℚ) (l : List ℚ) : ∀ x ∈ a :: l, x ≤ l.foldl max a := by
  induction l generalizing a with
  | nil => intro x hx; simp at hx; simp [hx]
  | cons b r ih =>
    intro x hx
    have hhead := ih (max a b) (max a b) (List.mem_cons_self _ _)
    rw [List.foldl_cons]
    rcases List.mem_cons.mp hx with h1 | h1
    · rw [h1]; exact le_trans (le_max_left a b) hhead
    · rcases List.mem_cons.mp h1 with h2 | h2
      · rw [h2]; exact le_trans (le_max_right a b) hhead
      · exact ih (max a b) x (List.mem_cons_of_mem _ h2)

theorem listMinD_mem (l : List ℚ) (h : l ≠ []) : listMinD l ∈ l := by
  cases l with
  | nil => exact absurd rfl h
  | cons a r => exact foldlMin_mem a r

theorem listMaxD_mem (l : List ℚ) (h : l ≠ []) : listMaxD l ∈ l := by
  cases l with
  | nil => exact absurd rfl h
  | cons a r => exact foldlMax_mem a r

theorem listMinD_le (l : List ℚ) (x : ℚ) (hx : x ∈ l) : listMinD l ≤ x := by
  cases l with
  | nil => simp at hx
  | cons a r => exact foldlMin_le a r x hx

theorem le_listMaxD (l : List ℚ) (x : ℚ) (hx : x ∈ l) : x ≤ listMaxD l := by
  cases l with
  | nil => simp at hx
  | cons a r => exact foldlMax_ge a r x hx

theorem ratToNatFloor_le (q : ℚ) (n : ℕ) (h0 : 0 ≤ q) (h : q ≤ (n : ℚ)) :
    ratToNatFloor q ≤ n := by
  have hcast : (ratToNatFloor q : ℚ) ≤ q := by
    unfold ratToNatFloor
    calc ((q.num.toNat / q.den : ℕ) : ℚ) ≤ (q.num.toNat : ℚ) / (q.den : ℚ) :=
          Nat.cast_div_le
    _ = ((q.num : ℚ)) / (q.den : ℚ) := by
          congr 1
          exact_mod_cast Int.toNat_of_nonneg (Rat.num_nonneg.mpr h0)
    _ = q := Rat.num_div_den q
  exact_mod_cast le_trans hcast h

theorem blendStep_fst (hann : ℕ → ℕ → ℚ) (oracle : Img → ℕ → ℕ → Val) (img : Img)
    (guide : Option (ℕ → ℕ → Val)) (tileSize overlap : ℕ)
    (b : (ℕ → ℕ → ℚ) × (ℕ → ℕ → ℚ)) (p : ℕ × ℕ) (r c : ℕ) :
    (blendStep hann oracle img guide tileSize overlap b p).1 r c =
      b.1 r c + accTerm hann oracle img guide tileSize overlap p r c := by
  by_cases h : inRegion img tileSize p r c <;> simp [blendStep, accTerm, h]

theorem blendStep_snd (hann : ℕ → ℕ → ℚ) (oracle : Img → ℕ → ℕ → Val) (img : Img)
    (guide : Option (ℕ → ℕ → Val)) (tileSize overlap : ℕ)
    (b : (ℕ → ℕ → ℚ) × (ℕ → ℕ → ℚ)) (p : ℕ × ℕ) (r c : ℕ) :
    (blendStep hann oracle img guide tileSize overlap b p).2 r c =
      b.2 r c + wTerm hann img tileSize overlap p r c := by
  by_cases h : inRegion img tileSize p r c <;> simp [blendStep, wTerm, h]

theorem foldl_blendStep (hann : ℕ → ℕ → ℚ) (oracle : Img → ℕ → ℕ → Val) (img : Img)
    (guide : Option (ℕ → ℕ → Val)) (tileSize overlap : ℕ)
    (l : List (ℕ × ℕ)) (b : (ℕ → ℕ → ℚ) × (ℕ → ℕ → ℚ)) (r c : ℕ) :
    (l.foldl (blendStep hann oracle img guide tileSize overlap) b).1 r c =
      b.1 r c + (l.map fun p => accTerm hann oracle img guide tileSize overlap p r c).sum ∧
    (l.foldl (blendStep hann oracle img guide tileSize overlap) b).2 r c =
      b.2 r c + (l.map fun p => wTerm hann img tileSize overlap p r c).sum := by
  induction l generalizing b with
  | nil => simp
  | cons p rest ih =>
    have h := ih (blendStep hann oracle img guide tileSize overlap b p)
    constructor
    · rw [List.foldl_cons, h.1, blendStep_fst]
      simp [add_assoc]
    · rw [List.foldl_cons, h.2, blendStep_snd]
      simp [add_assoc]

theorem accWsum_fst (hann : ℕ → ℕ → ℚ) (oracle : Img → ℕ → ℕ → Val) (img : Img)
    (guide : Option (ℕ → ℕ → Val)) (tileSize overlap : ℕ) (r c : ℕ) :
    (accWsum hann oracle img guide tileSize overlap).1 r c =
      accSum hann oracle img guide tileSize overlap r c := by
  have h := foldl_blendStep hann oracle img guide tileSize overlap
    (placements img.W img.H tileSize overlap) (fun _ _ => 0, fun _ _ => 0) r c
  simpa [accWsum, accSum] using h.1

theorem accWsum_snd (hann : ℕ → ℕ → ℚ) (oracle : Img → ℕ → ℕ → Val) (img : Img)
    (guide : Option (ℕ → ℕ → Val)) (tileSize overlap : ℕ) (r c : ℕ) :
    (accWsum hann oracle img guide tileSize overlap).2 r c =
      wsumSum hann img tileSize overlap r c := by
  have h := foldl_blendStep hann oracle img guide tileSize overlap
    (placements img.W img.H tileSize overlap) (fun _ _ => 0, fun _ _ => 0) r c
  simpa [accWsum, wsumSum] using h.2

theorem tsOf_ge (tileSize : ℕ) : 64 ≤ tsOf tileSize := le_max_left 64 tileSize

theorem stepOf_pos (tileSize overlap : ℕ) : 0 < stepOf tileSize overlap := by
  have h := tsOf_ge tileSize
  unfold stepOf ovOf
  omega

theorem stepOf_le_ts (tileSize overlap : ℕ) : stepOf tileSize overlap ≤ tsOf tileSize := by
  unfold stepOf; omega

theorem anchor_mem_tileStarts (dim tileSize overlap : ℕ) :
    dim - tsOf tileSize ∈ tileStarts dim tileSize overlap := by
  unfold tileStarts
  by_cases h : (List.range' 0 ((max 1 (dim - tsOf tileSize + 1) + stepOf tileSize overlap - 1) /
      stepOf tileSize overlap) (stepOf tileSize overlap)).getLast? = some (dim - tsOf tileSize)
  · rw [if_pos h]
    have hmem : dim - tsOf tileSize ∈ (List.range' 0 ((max 1 (dim - tsOf tileSize + 1) +
        stepOf tileSize overlap - 1) / stepOf tileSize overlap) (stepOf tileSize overlap)).getLast? :=
      Option.mem_def.mpr h
    obtain ⟨hne, heq⟩ := List.mem_getLast?_eq_getLast hmem
    have hlast := List.getLast_mem hne
    rw [← heq] at hlast
    exact hlast
  · rw [if_neg h]
    exact List.mem_append_right _ (List.mem_singleton_self _)

theorem tileStarts_le (dim tileSize overlap : ℕ) (y : ℕ)
    (hy : y ∈ tileStarts dim tileSize overlap) : y ≤ dim - tsOf tileSize := by
  unfold tileStarts at hy
  set ts := tsOf tileSize with hts
  set step := stepOf tileSize overlap with hstep
  have hstep0 : 0 < step := stepOf_pos tileSize overlap
  have hbase : ∀ z ∈ List.range' 0 ((max 1 (dim - ts + 1) + step - 1) / step) step,
      z ≤ dim - ts := by
    intro z hz
    rw [List.mem_range'] at hz
    obtain ⟨i, hi, hzi⟩ := hz
    have hcnt : (max 1 (dim - ts + 1) + step - 1) / step = (dim - ts) / step + 1 := by
      have h1 : max 1 (dim - ts + 1) = dim - ts + 1 := by omega
      rw [h1]
      have h2 : dim - ts + 1 + step - 1 = dim - ts + step := by omega
      rw [h2, Nat.add_div_right _ hstep0]
    rw [hcnt] at hi
    have hile : i ≤ (dim - ts) / step := by omega
    have : step * i ≤ step * ((dim - ts) / step) := Nat.mul_le_mul_left step hile
    have hfloor : step * ((dim - ts) / step) ≤ dim - ts := by
      rw [Nat.mul_comm]
      exact Nat.div_mul_le_self _ _
    omega
  by_cases h : (List.range' 0 ((max 1 (dim - ts + 1) + step - 1) / step) step).getLast? =
      some (dim - ts)
  · rw [if_pos h] at hy
    exact hbase y hy
  · rw [if_neg h] at hy
    rcases List.mem_append.mp hy with h1 | h1
    · exact hbase y h1
    · simp at h1; omega

theorem tileStarts_cover (dim tileSize overlap : ℕ) (r : ℕ) (hr : r < dim) :
    ∃ y ∈ tileStarts dim tileSize overlap, y ≤ r ∧ r < y + tsOf tileSize := by
  set ts := tsOf tileSize with hts
  set step := stepOf tileSize overlap with hstep
  have hstep0 : 0 < step := stepOf_pos tileSize overlap
  have hts0 : 64 ≤ ts := tsOf_ge tileSize
  by_cases hcase : dim - ts ≤ r
  · exact ⟨dim - ts, anchor_mem_tileStarts dim tileSize overlap, hcase, by omega⟩
  · push_neg at hcase
    refine ⟨step * (r / step), ?_, ?_, ?_⟩
    · unfold tileStarts
      have hmem : step * (r / step) ∈ List.range' 0 ((max 1 (dim - ts + 1) + step - 1) /
          step) step := by
        rw [List.mem_range']
        refine ⟨r / step, ?_, by omega⟩
        have hcnt : (max 1 (dim - ts + 1) + step - 1) / step = (dim - ts) / step + 1 := by
          have h1 : max 1 (dim - ts + 1) = dim - ts + 1 := by omega
          rw [h1]
          have h2 : dim - ts + 1 + step - 1 = dim - ts + step := by omega
          rw [h2, Nat.add_div_right _ hstep0]
        rw [hcnt]
        have : r / step ≤ (dim - ts) / step := Nat.div_le_div_right (by omega)
        omega
      by_cases h : (List.range' 0 ((max 1 (dim - ts + 1) + step - 1) / step) step).getLast? =
          some (dim - ts)
      · rw [if_pos h]; exact hmem
      · rw [if_neg h]; exact List.mem_append_left _ hmem
    · have := Nat.div_mul_le_self r step
      calc step * (r / step) = r / step * step := Nat.mul_comm _ _
      _ ≤ r := Nat.div_mul_le_self r step
    · have hmod := Nat.div_add_mod r step
      have hlt : r % step < step := Nat.mod_lt r hstep0
      have hsts : step ≤ ts := stepOf_le_ts tileSize overlap
      omega

theorem mem_placements (W H tileSize overlap y x : ℕ)
    (hy : y ∈ tileStarts H tileSize overlap) (hx : x ∈ tileStarts W tileSize overlap) :
    (y, x) ∈ placements W H tileSize overlap := by
  unfold placements
  rw [List.mem_flatMap]
  exact ⟨y, hy, List.mem_map_of_mem _ hx⟩

/-! ## Claim theorems -/

/-- C8: for a 256-pixel axis with `tile_size = 128` and `overlap = 32`
(`step = 96`), the Tile Scheduler produces exactly the start coordinates
`[0, 96, 128]`: the arithmetic progression `0, 96` below `W - ts + 1`,
plus the edge-anchored final start `max(0, 256 - 128) = 128`; no
duplicates, and the last tile reaches the far edge. -/
theorem tile_scheduler_256_starts : tileStarts 256 128 32 = [0, 96, 128] := by decide

/-- C1 (counterexample): on a 1×1 patch with tile value `0` and guide
value `1` there is exactly one jointly-finite pair (fewer than 24), the
bias `mean(guide) - mean(tile)` is `1`, yet `_align_patch_to_guide`
returns the tile *unchanged* (`some 0`) — not the bias-only result
`some 1` the claim asserts for the fewer-than-24-samples case. -/
theorem align_sub24_bias_cx :
    (finitePairs 1 1 (fun _ _ => some 0) (fun _ _ => some 1)).length < 24 ∧
    pairsMeanG (finitePairs 1 1 (fun _ _ => some 0) (fun _ _ => some 1)) -
      pairsMeanT (finitePairs 1 1 (fun _ _ => some 0) (fun _ _ => some 1)) = 1 ∧
    alignPatchToGuide 1 1 (fun _ _ => some 0) (some fun _ _ => some 1) 0 0 = some 0 ∧
    alignPatchToGuide 1 1 (fun _ _ => some 0) (some fun _ _ => some 1) 0 0 ≠ some 1 := by
  have hp : finitePairs 1 1 (fun _ _ => some 0) (fun _ _ => some 1) = [(0, 1)] := by decide
  refine ⟨by decide, ?_, by decide, by decide⟩
  rw [hp]
  norm_num [pairsMeanG, pairsMeanT, List.sum_cons]

/-- C1 (amended): the Photometric Aligner's degenerate fallbacks are:
identity when no guide is available; identity (not bias-only) when fewer
than 24 jointly-finite samples exist; and bias-only
(`s = 1`, `b = mean(guide) - mean(tile)`) when at least 24 samples exist
but the tile variance is below `1e-6`. -/
theorem align_degenerate_fallbacks (hp wp : ℕ) (t gp : ℕ → ℕ → Val) :
    alignPatchToGuide hp wp t none = t ∧
    ((finitePairs hp wp t gp).length < 24 → alignPatchToGuide hp wp t (some gp) = t) ∧
    (24 ≤ (finitePairs hp wp t gp).length →
      pairsVarT (finitePairs hp wp t gp) < 1 / 1000000 →
      ∀ i j, alignPatchToGuide hp wp t (some gp) i j =
        (t i j).map fun v =>
          v + (pairsMeanG (finitePairs hp wp t gp) - pairsMeanT (finitePairs hp wp t gp))) := by
  refine ⟨rfl, ?_, ?_⟩
  · intro h24
    simp only [alignPatchToGuide]
    rw [if_pos h24]
  · intro h24 hvar i j
    simp only [alignPatchToGuide]
    rw [if_neg (by omega), if_pos hvar]

/-- C1 (witness): a constant 5×5 tile (`2`) against a constant guide
(`7`): 25 ≥ 24 jointly-finite samples of variance `0 < 1e-6`, so the
bias-only branch applies and the aligned value is `2 + (7 - 2) = 7`. -/
theorem align_degenerate_fallbacks_witness :
    24 ≤ (finitePairs 5 5 cTile cGuide).length ∧
    pairsVarT (finitePairs 5 5 cTile cGuide) < 1 / 1000000 ∧
    alignPatchToGuide 5 5 cTile (some cGuide) 0 0 = some 7 := by
  have hpairs : finitePairs 5 5 cTile cGuide = List.replicate 25 (2, 7) := by decide
  have hmt : pairsMeanT (finitePairs 5 5 cTile cGuide) = 2 := by
    rw [hpairs]
    norm_num [pairsMeanT, List.map_replicate, List.sum_replicate, nsmul_eq_mul]
  have hmg : pairsMeanG (finitePairs 5 5 cTile cGuide) = 7 := by
    rw [hpairs]
    norm_num [pairsMeanG, List.map_replicate, List.sum_replicate, nsmul_eq_mul]
  have hvar : pairsVarT (finitePairs 5 5 cTile cGuide) < 1 / 1000000 := by
    rw [hpairs]
    norm_num [pairsVarT, pairsMeanT, List.map_replicate, List.sum_replicate, nsmul_eq_mul]
  refine ⟨by decide, hvar, ?_⟩
  have h := (align_degenerate_fallbacks 5 5 cTile cGuide).2.2 (by decide) hvar 0 0
  rw [h, hmg, hmt]
  norm_num [cTile]

/-- C9: when a tile's values equal the guide patch exactly (all finite),
the Aligner is the identity on the tile: in the regression branch the
scale is `cov/var = 1` (inside the clip range `[0.2, 5]`) and the bias is
`0`, and the degenerate branches also return the tile unchanged. -/
theorem align_identity_on_equal (hp wp : ℕ) (t : ℕ → ℕ → Val)
    (hfin : ∀ i j, i < hp → j < wp → (t i j).isSome) :
    ∀ i j, alignPatchToGuide hp wp t (some t) i j = t i j := by
  intro i j
  have hdiag : ∀ p ∈ finitePairs hp wp t t, p.1 = p.2 := by
    intro p hmem
    unfold finitePairs at hmem
    rw [List.mem_flatMap] at hmem
    obtain ⟨a, _, hmem⟩ := hmem
    rw [List.mem_filterMap] at hmem
    obtain ⟨b, _, hb⟩ := hmem
    cases h : t a b with
    | none => rw [h] at hb; simp at hb
    | some v =>
      rw [h] at hb
      simp at hb
      rw [← hb]
  have hMean : pairsMeanG (finitePairs hp wp t t) = pairsMeanT (finitePairs hp wp t t) := by
    unfold pairsMeanG pairsMeanT
    rw [List.map_congr_left (fun p hmem => (hdiag p hmem).symm)]
  have hCov : pairsCov (finitePairs hp wp t t) = pairsVarT (finitePairs hp wp t t) := by
    simp only [pairsCov, pairsVarT]
    rw [hMean]
    congr 1
    refine congrArg List.sum ?_
    refine List.map_congr_left fun p hmem => ?_
    rw [← hdiag p hmem]
  simp only [alignPatchToGuide]
  by_cases h24 : (finitePairs hp wp t t).length < 24
  · rw [if_pos h24]
  · rw [if_neg h24]
    by_cases hvar : pairsVarT (finitePairs hp wp t t) < 1 / 1000000
    · rw [if_pos hvar]
      rw [hMean, sub_self]
      cases t i j <;> simp
    · rw [if_neg hvar]
      have hne : pairsVarT (finitePairs hp wp t t) ≠ 0 := by
        push_neg at hvar
        intro h0
        rw [h0] at hvar
        norm_num at hvar
      have hS : max (min (pairsCov (finitePairs hp wp t t) /
          pairsVarT (finitePairs hp wp t t)) 5) (1 / 5) = 1 := by
        rw [hCov, div_self hne]
        norm_num
      rw [hS, hMean, one_mul, sub_self]
      cases t i j <;> simp

/-- C9 (witness): on a 1×1 finite patch equal to its guide, the aligned
value equals the tile value. -/
theorem align_identity_on_equal_witness :
    alignPatchToGuide 1 1 (fun _ _ => some 3) (some fun _ _ => some 3) 0 0 = some 3 :=
  align_identity_on_equal 1 1 (fun _ _ => some 3) (fun _ _ _ _ => rfl) 0 0

theorem placements128 :
    placements (imgConst 128 128).W (imgConst 128 128).H 128 64 = [(0, 0)] := by decide

theorem accWsum128_snd_00 :
    (accWsum hannStub (oracleConst 5) (imgConst 128 128) none 128 64).2 0 0 = 0 := by
  simp only [accWsum]
  rw [placements128, List.foldl_cons, List.foldl_nil, blendStep_snd]
  simp only [wTerm]
  rw [if_pos (by decide)]
  simp only [w2At]
  rw [if_neg (by decide)]
  simp only [featherWin]
  rw [if_pos (by decide)]
  norm_num [hannStub]

theorem accWsum128_fst_00 :
    (accWsum hannStub (oracleConst 5) (imgConst 128 128) none 128 64).1 0 0 = 0 := by
  simp only [accWsum]
  rw [placements128, List.foldl_cons, List.foldl_nil, blendStep_fst]
  simp only [accTerm]
  rw [if_pos (by decide)]
  simp only [w2At]
  rw [if_neg (by decide)]
  simp only [featherWin]
  rw [if_pos (by decide)]
  norm_num [hannStub]

theorem accWsum128_snd_11 :
    (accWsum hannStub (oracleConst 5) (imgConst 128 128) none 128 64).2 1 1 =
      1 / 4000000 := by
  simp only [accWsum]
  rw [placements128, List.foldl_cons, List.foldl_nil, blendStep_snd]
  simp only [wTerm]
  rw [if_pos (by decide)]
  simp only [w2At]
  rw [if_neg (by decide)]
  simp only [featherWin]
  rw [if_pos (by decide)]
  norm_num [hannStub]
  rw [if_neg (by decide), if_neg (by decide)]

theorem accWsum128_fst_11 :
    (accWsum hannStub (oracleConst 5) (imgConst 128 128) none 128 64).1 1 1 =
      1 / 800000 := by
  simp only [accWsum]
  rw [placements128, List.foldl_cons, List.foldl_nil, blendStep_fst]
  simp only [accTerm]
  rw [if_pos (by decide)]
  simp only [w2At]
  rw [if_neg (by decide)]
  simp only [featherWin]
  rw [if_pos (by decide)]
  norm_num [hannStub, tileQ, tileAligned, oracleConst]
  rw [if_neg (by decide), if_neg (by decide)]

/-- C2 (counterexample): a configuration the scheduler accepts
(`tile_size = 128`, `overlap = 64`, so the clamped overlap `64` is not
below `ts // 3 = 42` and the `0.25` window clamp is skipped) on a 128×128
image leaves `weight_total = 0` at the corner pixel `(0, 0)`: the corner
is covered by exactly one tile, whose Hann weight at the corner is
exactly `0` — so coverage by a tile does not make the accumulated weight
strictly positive. -/
theorem blend_coverage_cx :
    (accWsum hannStub (oracleConst 5) (imgConst 128 128) none 128 64).2 0 0 = 0 :=
  accWsum128_snd_00

/-- C2 (amended): whenever the clamped overlap is below `ts // 3` (so the
window is clamped to at least `0.25`), `weight_total` after accumulation
is strictly positive at every pixel of the raster, because the
edge-anchored tile starts cover every pixel and every covering tile
contributes weight at least `1/4`. -/
theorem blend_coverage_weight_pos (hann : ℕ → ℕ → ℚ) (oracle : Img → ℕ → ℕ → Val)
    (img : Img) (guide : Option (ℕ → ℕ → Val)) (tileSize overlap : ℕ)
    (hclip : ovOf tileSize overlap < tsOf tileSize / 3)
    (r c : ℕ) (hr : r < img.H) (hc : c < img.W) :
    0 < (accWsum hann oracle img guide tileSize overlap).2 r c := by
  rw [accWsum_snd]
  obtain ⟨y, hy, hyr, hry⟩ := tileStarts_cover img.H tileSize overlap r hr
  obtain ⟨x, hx, hxc, hcx⟩ := tileStarts_cover img.W tileSize overlap c hc
  have hyle := tileStarts_le img.H tileSize overlap y hy
  have hxle := tileStarts_le img.W tileSize overlap x hx
  have hreg : inRegion img tileSize (y, x) r c := by
    unfold inRegion
    refine ⟨hyr, ?_, hxc, ?_⟩ <;> omega
  have hterm_ge : (1 : ℚ) / 4 ≤ wTerm hann img tileSize overlap (y, x) r c := by
    simp only [wTerm]
    rw [if_pos hreg]
    simp only [w2At]
    rw [if_pos hclip]
    exact le_max_right _ _
  have hnonneg : ∀ q ∈ (placements img.W img.H tileSize overlap).map
      (fun p => wTerm hann img tileSize overlap p r c), 0 ≤ q := by
    intro q hq
    rw [List.mem_map] at hq
    obtain ⟨p, _, hpq⟩ := hq
    rw [← hpq]
    simp only [wTerm]
    by_cases h : inRegion img tileSize p r c
    · rw [if_pos h]
      simp only [w2At]
      rw [if_pos hclip]
      calc (0 : ℚ) ≤ 1 / 4 := by norm_num
      _ ≤ _ := le_max_right _ _
    · rw [if_neg h]
  have hmem := List.mem_map_of_mem (fun p => wTerm hann img tileSize overlap p r c)
    (mem_placements img.W img.H tileSize overlap y x hy hx)
  have hle := List.single_le_sum hnonneg _ hmem
  unfold wsumSum
  calc (0 : ℚ) < 1 / 4 := by norm_num
  _ ≤ wTerm hann img tileSize overlap (y, x) r c := hterm_ge
  _ ≤ _ := hle

/-- C2 (witness): on a 4×4 image with `tile_size = 64`, `overlap = 0`
(clamp active), the accumulated weight at pixel `(0, 0)` is positive. -/
theorem blend_coverage_weight_pos_witness :
    ovOf 64 0 < tsOf 64 / 3 ∧
    0 < (accWsum hannStub (oracleConst 5) (imgConst 4 4) none 64 0).2 0 0 :=
  ⟨by decide,
   blend_coverage_weight_pos hannStub (oracleConst 5) (imgConst 4 4) none 64 0
     (by decide) 0 0 (by decide) (by decide)⟩

/-- C3 (counterexample): at the corner pixel of the
`tile_size = 128, overlap = 64` configuration the total weight raster is
exactly `0`, yet `_zoe_infer_tiled` raises nothing: it silently replaces
the zero weight by `1.0` and returns a raster whose corner value is
`acc / 1 = 0`.  There is no fatal precondition signal anywhere on this
path. -/
theorem blend_silent_floor_cx :
    (accWsum hannStub (oracleConst 5) (imgConst 128 128) none 128 64).2 0 0 = 0 ∧
    zoeInferTiled hannStub (oracleConst 5) (imgConst 128 128) none 128 64 0 0 = 0 := by
  refine ⟨accWsum128_snd_00, ?_⟩
  simp only [zoeInferTiled]
  rw [accWsum128_snd_00, accWsum128_fst_00]
  norm_num

/-- C3 (amended): whenever `weight_total ≤ 1e-6` at a pixel, the blender
silently substitutes `1.0` for the denominator there and returns
`weighted_sum / 1` — no error is signalled. -/
theorem blend_floor_denominator (hann : ℕ → ℕ → ℚ) (oracle : Img → ℕ → ℕ → Val)
    (img : Img) (guide : Option (ℕ → ℕ → Val)) (tileSize overlap : ℕ) (r c : ℕ)
    (h : (accWsum hann oracle img guide tileSize overlap).2 r c ≤ 1 / 1000000) :
    zoeInferTiled hann oracle img guide tileSize overlap r c =
      (accWsum hann oracle img guide tileSize overlap).1 r c := by
  simp only [zoeInferTiled]
  rw [if_neg (not_lt.mpr h), div_one]

/-- C3 (witness): at pixel `(1, 1)` of the same configuration the weight
is `1/4000000 ≤ 1e-6`, and the output equals the raw accumulated sum. -/
theorem blend_floor_denominator_witness :
    (accWsum hannStub (oracleConst 5) (imgConst 128 128) none 128 64).2 1 1 ≤
      1 / 1000000 ∧
    zoeInferTiled hannStub (oracleConst 5) (imgConst 128 128) none 128 64 1 1 =
      (accWsum hannStub (oracleConst 5) (imgConst 128 128) none 128 64).1 1 1 := by
  have hle : (accWsum hannStub (oracleConst 5) (imgConst 128 128) none 128 64).2 1 1 ≤
      1 / 1000000 := by
    rw [accWsum128_snd_11]; norm_num
  exact ⟨hle, blend_floor_denominator hannStub (oracleConst 5) (imgConst 128 128)
    none 128 64 1 1 hle⟩

/-- C4 (counterexample): at pixel `(1, 1)` of the
`tile_size = 128, overlap = 64` configuration, `weight_total = 1/4000000`
lies in `(0, 1e-6]`, where the code divides by `1.0` while the claimed
formula divides by `max(weight_total, 1e-6) = 1e-6`: the code returns
`1/800000`, the claimed formula `5/4`. -/
theorem blend_eps_max_cx :
    zoeInferTiled hannStub (oracleConst 5) (imgConst 128 128) none 128 64 1 1 ≠
      accSum hannStub (oracleConst 5) (imgConst 128 128) none 128 64 1 1 /
        max (wsumSum hannStub (imgConst 128 128) 128 64 1 1) (1 / 1000000) := by
  have hacc : accSum hannStub (oracleConst 5) (imgConst 128 128) none 128 64 1 1 =
      1 / 800000 := by
    rw [← accWsum_fst]; exact accWsum128_fst_11
  have hws : wsumSum hannStub (imgConst 128 128) 128 64 1 1 = 1 / 4000000 := by
    rw [← accWsum_snd hannStub (oracleConst 5) (imgConst 128 128) none 128 64]
    exact accWsum128_snd_11
  have hout : zoeInferTiled hannStub (oracleConst 5) (imgConst 128 128) none 128 64 1 1 =
      1 / 800000 := by
    simp only [zoeInferTiled]
    rw [accWsum128_snd_11, accWsum128_fst_11]
    norm_num
  rw [hout, hacc, hws]
  rw [max_eq_right (by norm_num)]
  norm_num

/-- C4 (amended): at every pixel the blended raster equals
`weighted_sum / denom` where `denom` is `weight_total` when
`weight_total > 1e-6` and `1.0` otherwise (the code's
`np.where(wsum > 1e-6, wsum, 1.0)`, not `max(weight_total, 1e-6)`), with
`weighted_sum` and `weight_total` the per-pixel sums over all tile
placements of `weight · aligned_tile` (non-finite tile values contributing
zero value but full weight) and of `weight`. -/
theorem blend_division_formula (hann : ℕ → ℕ → ℚ) (oracle : Img → ℕ → ℕ → Val)
    (img : Img) (guide : Option (ℕ → ℕ → Val)) (tileSize overlap : ℕ) (r c : ℕ) :
    zoeInferTiled hann oracle img guide tileSize overlap r c =
      accSum hann oracle img guide tileSize overlap r c /
        (if 1 / 1000000 < wsumSum hann img tileSize overlap r c
         then wsumSum hann img tileSize overlap r c else 1) := by
  simp only [zoeInferTiled]
  rw [accWsum_fst, accWsum_snd]

theorem tileStarts_single (dim tileSize overlap : ℕ) (hts : tsOf tileSize = dim)
    (hov : ovOf tileSize overlap = 0) : tileStarts dim tileSize overlap = [0] := by
  have hdim : 64 ≤ dim := hts ▸ tsOf_ge tileSize
  have hstep : stepOf tileSize overlap = dim := by
    unfold stepOf
    rw [hts, hov]
    omega
  simp only [tileStarts]
  rw [hts, hstep]
  have hstop : max 1 (dim - dim + 1) = 1 := by omega
  rw [hstop]
  have hcnt : (1 + dim - 1) / dim = 1 := by
    have h1 : 1 + dim - 1 = dim := by omega
    rw [h1, Nat.div_self (by omega)]
  rw [hcnt]
  have hrange : List.range' 0 1 dim = [0] := rfl
  rw [hrange]
  have hsub : dim - dim = 0 := by omega
  rw [hsub]
  simp

/-- C5 (counterexample): `tile_size = 65 ≥ max(W, H) = 64` with
`overlap = 0` on a 64×64 image.  The single tile is the crop
`(0, 0, 65, 65)`, which PIL zero-pads to 65×65, so the oracle is shown a
65×65 image — not the original.  With the deterministic oracle whose
output is the constant `width of its input`, the tiled path returns `65`
at every pixel while the single-tile (non-tiled) path returns `64`: the
two paths differ by a full unit, far beyond floating-point tolerance. -/
theorem tiling_equivalence_cx :
    zoeInferTiled hannStub oracleWidth (imgConst 64 64) none 65 0 0 0 = 65 ∧
    singleDepth oracleWidth (imgConst 64 64) 0 0 = some 64 ∧
    some (zoeInferTiled hannStub oracleWidth (imgConst 64 64) none 65 0 0 0) ≠
      singleDepth oracleWidth (imgConst 64 64) 0 0 := by
  have hplace : placements (imgConst 64 64).W (imgConst 64 64).H 65 0 = [(0, 0)] := by
    decide
  have hfst : (accWsum hannStub oracleWidth (imgConst 64 64) none 65 0).1 0 0 =
      65 * (1 / 4) := by
    simp only [accWsum]
    rw [hplace, List.foldl_cons, List.foldl_nil, blendStep_fst]
    simp only [accTerm]
    rw [if_pos (by decide)]
    simp only [w2At]
    rw [if_pos (by decide)]
    simp only [featherWin]
    rw [if_pos (by decide)]
    have hq : tileQ oracleWidth (imgConst 64 64) none 65 0 (0, 0) 0 0 = 65 := by
      simp [tileQ, tileAligned, oracleWidth, cropImg, tsOf]
    rw [hq]
    norm_num [hannStub]
  have hsnd : (accWsum hannStub oracleWidth (imgConst 64 64) none 65 0).2 0 0 =
      1 / 4 := by
    simp only [accWsum]
    rw [hplace, List.foldl_cons, List.foldl_nil, blendStep_snd]
    simp only [wTerm]
    rw [if_pos (by decide)]
    simp only [w2At]
    rw [if_pos (by decide)]
    simp only [featherWin]
    rw [if_pos (by decide)]
    norm_num [hannStub]
  have hout : zoeInferTiled hannStub oracleWidth (imgConst 64 64) none 65 0 0 0 = 65 := by
    simp only [zoeInferTiled]
    rw [hfst, hsnd]
    norm_num
  have hsingle : singleDepth oracleWidth (imgConst 64 64) 0 0 = some 64 := by
    simp [singleDepth, oracleWidth, imgConst]
  refine ⟨hout, hsingle, ?_⟩
  rw [hout, hsingle]
  intro h
  have := Option.some.inj h
  norm_num at this

/-- C5 (amended): when the single tile is *exactly* the image — square
image, `tile_size = W = H ≥ 64`, `overlap = 0`, no guide — and the oracle
reads only its input's actual pixels and returns finite values on the
image, the tiled path's output equals the single-tile (non-tiled) path's
output exactly at every pixel: the crop is the whole image, the clamped
window weight `w ≥ 1/4` survives the `1e-6` guard, and `v·w / w = v`. -/
theorem tiling_equivalence_exact (hann : ℕ → ℕ → ℚ) (oracle : Img → ℕ → ℕ → Val)
    (img : Img) (hsq : img.H = img.W) (hW : 64 ≤ img.W)
    (hproper : OracleProper oracle)
    (hfin : ∀ r c, r < img.H → c < img.W → (oracle img r c).isSome)
    (r c : ℕ) (hr : r < img.H) (hc : c < img.W) :
    some (zoeInferTiled hann oracle img none img.W 0 r c) = singleDepth oracle img r c := by
  have hts : tsOf img.W = img.W := by unfold tsOf; omega
  have hov : ovOf img.W 0 = 0 := by unfold ovOf; omega
  have hxs : tileStarts img.W img.W 0 = [0] := tileStarts_single _ _ _ hts hov
  have hys : tileStarts img.H img.W 0 = [0] := by rw [hsq]; exact hxs
  have hplace : placements img.W img.H img.W 0 = [(0, 0)] := by
    unfold placements
    rw [hxs, hys]
    rfl
  have hcropEq : oracle (cropImg img 0 0 img.W) = oracle img := by
    apply hproper
    · rfl
    · show img.W = img.H
      omega
    · intro rr cc hrr hcc
      simp only [cropImg] at hrr hcc ⊢
      rw [if_pos (by omega)]
      simp
  have hreg : inRegion img img.W (0, 0) r c := by
    unfold inRegion
    simp only
    omega
  obtain ⟨v, hv⟩ := Option.isSome_iff_exists.mp (hfin r c hr hc)
  have htq : tileQ oracle img none img.W 0 (0, 0) r c = v := by
    simp only [tileQ, tileAligned]
    rw [hts, hcropEq]
    simp only [Nat.sub_zero]
    rw [hv]
    rfl
  have hw2ge : (1 : ℚ) / 4 ≤ w2At hann img.W 0 r c := by
    simp only [w2At]
    rw [if_pos (by rw [hov, hts]; omega)]
    exact le_max_right _ _
  have h1 : (accWsum hann oracle img none img.W 0).1 r c =
      v * w2At hann img.W 0 r c := by
    simp only [accWsum]
    rw [hplace, List.foldl_cons, List.foldl_nil, blendStep_fst]
    simp only [accTerm]
    rw [if_pos hreg, htq]
    simp [Nat.sub_zero]
  have h2 : (accWsum hann oracle img none img.W 0).2 r c = w2At hann img.W 0 r c := by
    simp only [accWsum]
    rw [hplace, List.foldl_cons, List.foldl_nil, blendStep_snd]
    simp only [wTerm]
    rw [if_pos hreg]
    simp [Nat.sub_zero]
  simp only [zoeInferTiled]
  rw [h1, h2, if_pos (lt_of_lt_of_le (by norm_num) hw2ge)]
  rw [mul_div_cancel_right₀ v (ne_of_gt (lt_of_lt_of_le (by norm_num) hw2ge))]
  rw [singleDepth, hv]

/-- C5 (witness): a 64×64 image, `tile_size = 64`, `overlap = 0`, with
the width-reporting oracle: both paths produce `64` at pixel `(0, 0)`. -/
theorem tiling_equivalence_exact_witness :
    some (zoeInferTiled hannStub oracleWidth (imgConst 64 64) none 64 0 0 0) =
      singleDepth oracleWidth (imgConst 64 64) 0 0 :=
  tiling_equivalence_exact hannStub oracleWidth (imgConst 64 64) rfl (by decide)
    (by
      intro a b hW _ _
      funext rr cc
      simp [oracleWidth, hW])
    (fun _ _ _ _ => rfl) 0 0 (by decide) (by decide)

/-- C6: for a non-empty all-finite raster whose finite max − min exceeds
the `1e-6` degeneracy threshold, the 16-bit output attains `0` and
`65535` and never exceeds `65535` (so its minimum is `0` and its maximum
is `65535`); and for a raster with no finite value the normalizer
returns an all-zero raster flagged with the sentinel pair
`(d_min, d_max) = (0, 1)`. -/
theorem normalize_range_flags (d : List Val) :
    (finiteVals d ≠ [] →
      1 / 1000000 < listMaxD (finiteVals d) - listMinD (finiteVals d) →
      (∀ v ∈ d, v.isSome) →
      0 ∈ (normalizeDepthToUint16 d).d16 ∧ 65535 ∈ (normalizeDepthToUint16 d).d16 ∧
        ∀ q ∈ (normalizeDepthToUint16 d).d16, q ≤ 65535) ∧
    (finiteVals d = [] →
      (normalizeDepthToUint16 d).d16 = d.map (fun _ => 0) ∧
      (normalizeDepthToUint16 d).dmin = 0 ∧ (normalizeDepthToUint16 d).dmax = 1) := by
  constructor
  · intro hne hgap hfin
    have hEmp : ¬ ((finiteVals d).isEmpty = true) := by
      simp [List.isEmpty_iff, hne]
    have hrange : max (listMaxD (finiteVals d) - listMinD (finiteVals d)) (1 / 1000000) =
        listMaxD (finiteVals d) - listMinD (finiteVals d) :=
      max_eq_left (le_of_lt hgap)
    have hgap0 : listMaxD (finiteVals d) - listMinD (finiteVals d) ≠ 0 := by
      intro h0
      rw [h0] at hgap
      norm_num at hgap
    have hmMem : some (listMinD (finiteVals d)) ∈ d := by
      have h1 : listMinD (finiteVals d) ∈ finiteVals d := listMinD_mem _ hne
      unfold finiteVals at h1
      rw [List.mem_filterMap] at h1
      obtain ⟨a, ha, hid⟩ := h1
      rw [id_eq] at hid
      rwa [hid] at ha
    have hMMem : some (listMaxD (finiteVals d)) ∈ d := by
      have h1 : listMaxD (finiteVals d) ∈ finiteVals d := listMaxD_mem _ hne
      unfold finiteVals at h1
      rw [List.mem_filterMap] at h1
      obtain ⟨a, ha, hid⟩ := h1
      rw [id_eq] at hid
      rwa [hid] at ha
    simp only [normalizeDepthToUint16]
    rw [if_neg hEmp]
    dsimp only
    rw [List.map_map]
    refine ⟨?_, ?_, ?_⟩
    · refine List.mem_map.mpr ⟨some (listMinD (finiteVals d)), hmMem, ?_⟩
      simp only [Function.comp, Option.getD_some, sub_self, zero_div, zero_mul]
      rw [max_self, min_eq_left (by norm_num)]
      rfl
    · refine List.mem_map.mpr ⟨some (listMaxD (finiteVals d)), hMMem, ?_⟩
      simp only [Function.comp, Option.getD_some]
      rw [hrange, div_self hgap0, one_mul]
      rw [max_eq_left (by norm_num), min_self]
      norm_num [ratToNatFloor]
      decide
    · intro q hq
      rw [List.mem_map] at hq
      obtain ⟨v0, _, hfq⟩ := hq
      rw [← hfq]
      refine ratToNatFloor_le _ _ ?_ ?_
      · exact le_min (le_max_right _ _) (by norm_num)
      · calc min (max ((v0.getD 0 - listMinD (finiteVals d)) /
            max (listMaxD (finiteVals d) - listMinD (finiteVals d)) (1 / 1000000) * 65535) 0)
              65535 ≤ 65535 := min_le_right _ _
        _ = ((65535 : ℕ) : ℚ) := by norm_num
  · intro h
    simp [normalizeDepthToUint16, h]

/-- C6 (witness): the raster `[0, 1]` is all-finite with gap `1 > 1e-6`;
its 16-bit output contains `0` and `65535`; and the all-`NaN` raster
`[none]` normalizes to the flagged all-zero result. -/
theorem normalize_range_flags_witness :
    (1 / 1000000 < listMaxD (finiteVals [some 0, some 1]) -
      listMinD (finiteVals [some 0, some 1]) ∧
     0 ∈ (normalizeDepthToUint16 [some 0, some 1]).d16 ∧
     65535 ∈ (normalizeDepthToUint16 [some 0, some 1]).d16) ∧
    ((normalizeDepthToUint16 [(none : Val)]).d16 = [0] ∧
     (normalizeDepthToUint16 [(none : Val)]).dmax = 1) := by
  have hfv : finiteVals [some 0, some 1] = [0, 1] := by decide
  have hgap : 1 / 1000000 < listMaxD (finiteVals [some 0, some 1]) -
      listMinD (finiteVals [some 0, some 1]) := by
    rw [hfv]
    norm_num [listMaxD, listMinD, List.foldl, max_eq_right, min_eq_left]
  have h1 := (normalize_range_flags [some 0, some 1]).1 (by rw [hfv]; simp) hgap
    (by decide)
  have h2 := (normalize_range_flags [(none : Val)]).2 (by decide)
  exact ⟨⟨hgap, h1.1, h1.2.1⟩, ⟨h2.1, h2.2.2⟩⟩

/-- C7: the statistics function returns `none` (no statistics, not zeros)
whenever the selected mask has fewer than 16 pixels or fewer than 8 of
the selected depth values are finite; whenever it returns statistics, the
reported interquartile range is at least `1e-6`. -/
theorem stats_guards (H W : ℕ) (depth : ℕ → ℕ → Val) (mask : ℕ → ℕ → Bool)
    (fp : Option (List (ℚ × ℚ))) (fr : ℚ) :
    (gridCount H W (statsSel H W mask fp fr).1 < 16 →
      computeMaskDepthStats H W depth mask fp fr = none) ∧
    ((gridVals H W depth (statsSel H W mask fp fr).1).length < 8 →
      computeMaskDepthStats H W depth mask fp fr = none) ∧
    ∀ s, computeMaskDepthStats H W depth mask fp fr = some s →
      1 / 1000000 ≤ s.bandIqr := by
  refine ⟨?_, ?_, ?_⟩
  · intro h
    simp only [computeMaskDepthStats]
    rw [if_pos h]
  · intro h
    simp only [computeMaskDepthStats]
    by_cases h16 : gridCount H W (statsSel H W mask fp fr).1 < 16
    · rw [if_pos h16]
    · rw [if_neg h16, if_pos h]
  · intro s hs
    simp only [computeMaskDepthStats] at hs
    by_cases h16 : gridCount H W (statsSel H W mask fp fr).1 < 16
    · rw [if_pos h16] at hs
      exact absurd hs (by simp)
    · rw [if_neg h16] at hs
      by_cases h8 : (gridVals H W depth (statsSel H W mask fp fr).1).length < 8
      · rw [if_pos h8] at hs
        exact absurd hs (by simp)
      · rw [if_neg h8] at hs
        have heq := Option.some.inj hs
        rw [← heq]
        exact le_max_right _ _

/-- C7 (witness): with an all-false mask on a 2×2 raster, zero pixels are
selected (fewer than 16) and the statistics result is `none`. -/
theorem stats_guards_witness :
    gridCount 2 2 (statsSel 2 2 (fun _ _ => false) none (2 / 25)).1 < 16 ∧
    computeMaskDepthStats 2 2 (fun _ _ => some 1) (fun _ _ => false) none (2 / 25) =
      none :=
  ⟨by decide, (stats_guards 2 2 (fun _ _ => some 1) (fun _ _ => false) none (2 / 25)).1
    (by decide)⟩

/-- C10: for every mask-selected in-bounds pixel, the clipped
neighbourhood window contains the centre pixel itself, whose combined
weight is `exp 0 · exp 0 = 1`; hence the total weight is at least `1`,
the `w_sum > 1e-8` guard always succeeds, the fall-back to the unfiltered
value is unreachable, and the pixel is assigned the weighted
neighbourhood average. -/
theorem refine_center_weight (H W : ℕ) (rgb : ℕ → ℕ → Pix) (depth : ℕ → ℕ → ℚ)
    (mask : ℕ → ℕ → Bool) (radius : ℕ) (sigmaS sigmaR : ℚ) (gexp : ℚ → ℚ)
    (hg0 : gexp 0 = 1) (hgpos : ∀ q, 0 ≤ gexp q)
    (y x : ℕ) (hy : y < H) (hx : x < W) (hm : mask y x = true) :
    1 ≤ bilateralWSum H W rgb sigmaS sigmaR gexp radius y x ∧
    refineJointBilateral H W rgb depth mask radius sigmaS sigmaR gexp y x =
      bilateralNum H W rgb depth sigmaS sigmaR gexp radius y x /
        bilateralWSum H W rgb sigmaS sigmaR gexp radius y x := by
  have hcenter : bilateralWeight rgb sigmaS sigmaR gexp y x y x = 1 := by
    simp only [bilateralWeight, dist2]
    simp [sub_self, hg0]
  have hymem : y ∈ windowIdx H y radius := by
    unfold windowIdx
    rw [List.mem_range']
    exact ⟨y - (y - radius), by omega, by omega⟩
  have hxmem : x ∈ windowIdx W x radius := by
    unfold windowIdx
    rw [List.mem_range']
    exact ⟨x - (x - radius), by omega, by omega⟩
  have hwpos : ∀ yy xx, 0 ≤ bilateralWeight rgb sigmaS sigmaR gexp y x yy xx :=
    fun yy xx => mul_nonneg (hgpos _) (hgpos _)
  have hinner : 1 ≤ ((windowIdx W x radius).map fun xx =>
      bilateralWeight rgb sigmaS sigmaR gexp y x y xx).sum := by
    have hmem := List.mem_map_of_mem
      (fun xx => bilateralWeight rgb sigmaS sigmaR gexp y x y xx) hxmem
    have hle := List.single_le_sum (l := (windowIdx W x radius).map fun xx =>
        bilateralWeight rgb sigmaS sigmaR gexp y x y xx) ?_ _ hmem
    · calc (1 : ℚ) = bilateralWeight rgb sigmaS sigmaR gexp y x y x := hcenter.symm
      _ ≤ _ := hle
    · intro q hq
      rw [List.mem_map] at hq
      obtain ⟨xx, _, hxx⟩ := hq
      rw [← hxx]
      exact hwpos y xx
  have houter : 1 ≤ bilateralWSum H W rgb sigmaS sigmaR gexp radius y x := by
    unfold bilateralWSum
    have hmem := List.mem_map_of_mem (fun yy => ((windowIdx W x radius).map fun xx =>
      bilateralWeight rgb sigmaS sigmaR gexp y x yy xx).sum) hymem
    have hle := List.single_le_sum (l := (windowIdx H y radius).map fun yy =>
        ((windowIdx W x radius).map fun xx =>
          bilateralWeight rgb sigmaS sigmaR gexp y x yy xx).sum) ?_ _ hmem
    · exact le_trans hinner hle
    · intro q hq
      rw [List.mem_map] at hq
      obtain ⟨yy, _, hyy⟩ := hq
      rw [← hyy]
      refine List.sum_nonneg ?_
      intro a ha
      rw [List.mem_map] at ha
      obtain ⟨xx, _, hxx⟩ := ha
      rw [← hxx]
      exact hwpos yy xx
  refine ⟨houter, ?_⟩
  simp only [refineJointBilateral]
  rw [if_pos hm, if_pos (lt_of_lt_of_le (by norm_num) houter)]

/-- C10 (witness): a 1×1 image with the selected centre pixel: the total
weight is at least `1` and the refined value is the weighted average. -/
theorem refine_center_weight_witness :
    1 ≤ bilateralWSum 1 1 (fun _ _ => (0, 0, 0)) 2 (1 / 10) (fun _ => 1) 2 0 0 ∧
    refineJointBilateral 1 1 (fun _ _ => (0, 0, 0)) (fun _ _ => 3) (fun _ _ => true) 2 2
        (1 / 10) (fun _ => 1) 0 0 =
      bilateralNum 1 1 (fun _ _ => (0, 0, 0)) (fun _ _ => 3) 2 (1 / 10) (fun _ => 1)
          2 0 0 /
        bilateralWSum 1 1 (fun _ _ => (0, 0, 0)) 2 (1 / 10) (fun _ => 1) 2 0 0 :=
  refine_center_weight 1 1 (fun _ _ => (0, 0, 0)) (fun _ _ => 3) (fun _ _ => true) 2 2
    (1 / 10) (fun _ => 1) rfl (fun _ => by norm_num) 0 0 (by decide) (by decide) rfl

end Med7
